import Mathlib

/-!
Verification of the contextual chunking and annotation pipeline of the
`ai-rag` repository.  The definitions below are a shallow embedding of
`src/utils/chunking.ts` and `src/services/context-service.ts`, together
with the ingestion entry point `ingestDocumentWithContextualRetrieval`
from `src/services/document-ingestion.ts`.
-/

set_option autoImplicit false

/-- Whitespace test matching the JavaScript regular expression `\s` on the
ASCII range (space, tab, newline, carriage return, vertical tab, form
feed).  The source splits documents with `content.split(/\s+/)`; all
theorems below are parametric in the exact whitespace set. -/
def isWs (c : Char) : Bool :=
  c = ' ' || c = '\t' || c = '\n' || c = '\r' || c = '\x0b' || c = '\x0c'

mutual

/-- First state of `String.prototype.split(/\s+/)`: scanning a token whose
characters read so far are `cur` (in reverse).  Reaching the end of the
input emits the token; reaching a whitespace character emits the token and
switches to the separator-skipping state. -/
def splitWsAux : List Char → List Char → List String
  | [], cur => [String.mk cur.reverse]
  | c :: rest, cur =>
    if isWs c then String.mk cur.reverse :: splitWsSkip rest
    else splitWsAux rest (c :: cur)

/-- Second state of `String.prototype.split(/\s+/)`: inside a maximal
whitespace run.  An input that ends inside a separator run contributes a
final empty token (the JavaScript behaviour for trailing whitespace). -/
def splitWsSkip : List Char → List String
  | [] => [String.mk []]
  | c :: rest => if isWs c then splitWsSkip rest else splitWsAux rest [c]

end

/-- JavaScript `content.split(/\s+/)`.  In particular `"".split(/\s+/)`
is `[""]` and a nonempty all-whitespace string splits to `["", ""]`,
exactly as the test file of the repository records. -/
def splitWs (s : String) : List String :=
  splitWsAux s.data []

/-- JavaScript `Array.prototype.join(sep)`. -/
def joinSep (sep : String) : List String → String
  | [] => ""
  | [t] => t
  | t :: ts => t ++ sep ++ joinSep sep ts

/-- Chunk record from `src/utils/chunking.ts` (`DocumentChunk`). -/
structure DocumentChunk where
  content : String
  chunkIndex : Nat
  startOffset : Nat
  endOffset : Nat
deriving DecidableEq, Repr

/-- Body of the `while (startIndex < words.length)` loop of
`chunkDocument`.  The loop is driven by `fuel`; for `chunkSize ≥ 1` the
start index strictly increases each iteration, so `words.length` units of
fuel always complete the loop (proved in `chunkLoop_fuel_irrelevant`).
The next start index mirrors the source exactly: first
`startIndex += (chunkSize - overlap)` and then the degenerate-overlap
guard `if (overlap >= chunkSize) startIndex = endIndex` (the truncated
natural subtraction only differs from JavaScript arithmetic in the branch
that the guard overwrites). -/
def chunkLoop (words : List String) (chunkSize overlap : Nat) :
    Nat → Nat → Nat → List DocumentChunk
  | 0, _, _ => []
  | fuel + 1, startIndex, chunkIndex =>
    if startIndex < words.length then
      let endIndex := min (startIndex + chunkSize) words.length
      let chunkWords := (words.drop startIndex).take (endIndex - startIndex)
      let chunkContent := joinSep " " chunkWords
      { content := chunkContent, chunkIndex := chunkIndex,
        startOffset := startIndex, endOffset := endIndex } ::
      chunkLoop words chunkSize overlap fuel
        (if chunkSize ≤ overlap then endIndex else startIndex + (chunkSize - overlap))
        (chunkIndex + 1)
    else []

/-- `chunkDocument` from `src/utils/chunking.ts` (word-based windower).
The source defaults are `chunkSize = 800`, `overlap = 100`. -/
def chunkDocument (content : String) (chunkSize overlap : Nat) : List DocumentChunk :=
  let words := splitWs content
  if words.length = 0 then []
  else chunkLoop words chunkSize overlap words.length 0 0

/-- Loop of `chunkDocumentByCharacters`, character-based sibling of
`chunkLoop` (`content.slice` instead of word slicing and joining). -/
def charChunkLoop (content : List Char) (chunkSizeChars overlapChars : Nat) :
    Nat → Nat → Nat → List DocumentChunk
  | 0, _, _ => []
  | fuel + 1, startIndex, chunkIndex =>
    if startIndex < content.length then
      let endIndex := min (startIndex + chunkSizeChars) content.length
      let chunkContent := String.mk ((content.drop startIndex).take (endIndex - startIndex))
      { content := chunkContent, chunkIndex := chunkIndex,
        startOffset := startIndex, endOffset := endIndex } ::
      charChunkLoop content chunkSizeChars overlapChars fuel
        (if chunkSizeChars ≤ overlapChars then endIndex
         else startIndex + (chunkSizeChars - overlapChars))
        (chunkIndex + 1)
    else []

/-- `chunkDocumentByCharacters` from `src/utils/chunking.ts`.  The source
defaults are `chunkSizeChars = 3200`, `overlapChars = 400`.  Unlike the
word-based variant, it returns the empty list on `content.length === 0`. -/
def chunkDocumentByCharacters (content : String) (chunkSizeChars overlapChars : Nat) :
    List DocumentChunk :=
  if content.length = 0 then []
  else charChunkLoop content.data chunkSizeChars overlapChars content.length 0 0

/-- JavaScript `arr.slice(-n)` for `n ≤ arr.length`: the last `n` elements. -/
def lastTokens (n : Nat) (l : List String) : List String :=
  l.drop (l.length - n)

/-- JavaScript `arr.slice(0, n)`: the first `n` elements. -/
def firstTokens (n : Nat) (l : List String) : List String :=
  l.take n

/-- All elements of a token list except the last are nonempty. -/
def TailNE : List String → Prop
  | [] => True
  | [_] => True
  | t :: rest => t ≠ "" ∧ TailNE rest

/-- All elements of a token list except the first and the last are
nonempty.  `splitWs` only ever produces empty tokens in the first position
(leading whitespace) or the last position (trailing whitespace). -/
def InteriorNE : List String → Prop
  | [] => True
  | _ :: rest => TailNE rest

/-- Optional constructor options of `ContextualRetrievalService`
(`ContextGenerationOptions` in `src/services/context-service.ts`). -/
structure ContextGenerationOptions where
  model : Option String
  maxTokens : Option Nat
  temperature : Option ℚ
  windowSize : Option Nat

/-- The resolved `Required<ContextGenerationOptions>` stored by the
service as `defaultOptions`. -/
structure RequiredOptions where
  model : String
  maxTokens : Nat
  temperature : ℚ
  windowSize : Nat
deriving DecidableEq

/-- JavaScript `x || d` on an optional string: `undefined` and the empty
string are falsy. -/
def jsOrString (v : Option String) (d : String) : String :=
  match v with
  | some s => if s = "" then d else s
  | none => d

/-- JavaScript `x || d` on an optional number: `undefined` and `0` are
falsy. -/
def jsOrNat (v : Option Nat) (d : Nat) : Nat :=
  match v with
  | some n => if n = 0 then d else n
  | none => d

/-- JavaScript `x || d` on an optional rational-valued number. -/
def jsOrRat (v : Option ℚ) (d : ℚ) : ℚ :=
  match v with
  | some q => if q = 0 then d else q
  | none => d

/-- Constructor of `ContextualRetrievalService`: resolves the option
defaults (`gpt-4o-mini`, 100 output tokens, temperature 0.3, window 2)
with JavaScript `||` semantics. -/
def defaultOptions (options : ContextGenerationOptions) : RequiredOptions :=
  { model := jsOrString options.model "gpt-4o-mini",
    maxTokens := jsOrNat options.maxTokens 100,
    temperature := jsOrRat options.temperature (3 / 10),
    windowSize := jsOrNat options.windowSize 2 }

/-- One request to the external text-generation capability
(`openai.chat.completions.create` with one system and one user message). -/
structure ChatRequest where
  model : String
  system : String
  user : String
  maxTokens : Nat
  temperature : ℚ
deriving DecidableEq

/-- The injected text-generation capability: returns the assistant message
content, or fails (quota/network/server error). -/
def GenOracle : Type := ChatRequest → Except String String

def summarizeSystemPrompt : String :=
  "Summarize the given text in one concise sentence. Focus on key topics, entities, and main points."

/-- The request issued by `summarizeChunk`: fixed ceiling of 50 output
tokens and temperature 0.3, independent of the configured options. -/
def summarizeRequest (opts : RequiredOptions) (chunk : String) : ChatRequest :=
  { model := opts.model, system := summarizeSystemPrompt, user := chunk,
    maxTokens := 50, temperature := 3 / 10 }

/-- `summarizeChunk` from `src/services/context-service.ts`: trims the
response on success and swallows any error, returning the empty string
(the `catch` block), so that one bad chunk does not fail pass 1.
`chunkIndex` is used by the source only in a `console.error` log. -/
def summarizeChunk (opts : RequiredOptions) (gen : GenOracle) (chunk : String)
    (chunkIndex : Nat) : String :=
  match gen (summarizeRequest opts chunk) with
  | .ok content => content.trim
  | .error _ => ""

/-- Document metadata fields read by the prompt construction
(`metadata?.title`, `metadata?.type`, `metadata?.source`). -/
structure Metadata where
  title : Option String
  type : Option String
  source : Option String
deriving DecidableEq

/-- One conditional `docInfo.push(...)` of `generateContextForChunk`:
the field is included only when truthy (present and nonempty). -/
def metaField (v : Option String) (f : String → String) : List String :=
  match v with
  | some s => if s = "" then [] else [f s]
  | none => []

/-- The document descriptor: quoted title, type, and parenthesised source
joined by spaces, falling back to `"Document"` when all are absent. -/
def docContextOf (metadata : Metadata) : String :=
  let docInfo := metaField metadata.title (fun t => "\"" ++ t ++ "\"")
    ++ metaField metadata.type (fun t => t)
    ++ metaField metadata.source (fun s => "(" ++ s ++ ")")
  if docInfo = [] then "Document" else joinSep " " docInfo

/-- The sliding window of `generateContextForChunk`:
`previousSummaries.slice(Math.max(0, chunkIndex - windowSize), chunkIndex)`.
Truncated natural subtraction coincides with `Math.max(0, ·)`. -/
def relevantSummaries (windowSize chunkIndex : Nat) (previousSummaries : List String) :
    List String :=
  (previousSummaries.drop (chunkIndex - windowSize)).take
    (chunkIndex - (chunkIndex - windowSize))

/-- The `contextHints` block: empty unless the window is nonempty. -/
def contextHintsOf (relevant : List String) : String :=
  if relevant = [] then ""
  else "Previous sections covered:\n"
    ++ joinSep "\n" (relevant.map (fun s => "- " ++ s)) ++ "\n\n"

/-- The user prompt assembled by `generateContextForChunk` from the
document descriptor, the 1-based position marker, the sliding-window
hints, and the chunk text. -/
def contextPromptCore (metadata : Metadata) (chunkIndex : Nat) (relevant : List String)
    (chunk : String) : String :=
  docContextOf metadata ++ " - " ++ "Chunk " ++ toString (chunkIndex + 1) ++ "\n"
    ++ contextHintsOf relevant ++ "Current chunk:\n" ++ chunk
    ++ "\n\nProvide a brief 1-2 sentence context explaining what this chunk discusses and how it relates to the document. Focus on topics, entities, and relevance for search retrieval."

def contextSystemPrompt : String :=
  "You provide concise contextual information for document chunks to improve search retrieval. Create context that situates the chunk within the broader document."

/-- The request issued by `generateContextForChunk`: configured model,
output-token ceiling and temperature, with the assembled prompt. -/
def contextRequest (opts : RequiredOptions) (chunk : String) (chunkIndex : Nat)
    (previousSummaries : List String) (metadata : Metadata) : ChatRequest :=
  { model := opts.model, system := contextSystemPrompt,
    user := contextPromptCore metadata chunkIndex
      (relevantSummaries opts.windowSize chunkIndex previousSummaries) chunk,
    maxTokens := opts.maxTokens, temperature := opts.temperature }

/-- Errors observable from the context service: a JavaScript `TypeError`
(calling a missing method) or the wrapped generation failure rethrown by
`generateContextForChunk`. -/
inductive JsError where
  | typeError : String → JsError
  | generationFailed : String → JsError
deriving DecidableEq

/-- `generateContextForChunk`: trims the response on success and, unlike
`summarizeChunk`, propagates the failure (wrapped in a new error). -/
def generateContextForChunk (opts : RequiredOptions) (gen : GenOracle) (chunk : String)
    (chunkIndex : Nat) (previousSummaries : List String) (metadata : Metadata) :
    Except JsError String :=
  match gen (contextRequest opts chunk chunkIndex previousSummaries metadata) with
  | .ok content => .ok content.trim
  | .error e => .error (.generationFailed ("Failed to generate context: " ++ e))

/-- JavaScript `array.map((x, i) => ...)` with the running index made
explicit: `mapWithIndex f i l` applies `f` to `i, i+1, …`. -/
def mapWithIndex {α β : Type} (f : Nat → α → β) : Nat → List α → List β
  | _, [] => []
  | i, a :: as => f i a :: mapWithIndex f (i + 1) as

/-- `Promise.all` over an indexed family of fallible operations: the
result list is in input order; the whole call rejects iff some operation
rejects. -/
def mapWithIndexM {α β ε : Type} (f : Nat → α → Except ε β) :
    Nat → List α → Except ε (List β)
  | _, [] => .ok []
  | i, a :: as =>
    match f i a with
    | .error e => .error e
    | .ok r =>
      match mapWithIndexM f (i + 1) as with
      | .error e => .error e
      | .ok rs => .ok (r :: rs)

/-- Pass 1 of `generateContextsForChunks`:
`allChunks.map((chunk, index) => this.summarizeChunk(chunk, index))`
awaited with `Promise.all`.  `summarizeChunk` never fails, so pass 1
always completes with one (possibly empty) summary per chunk. -/
def pass1Summaries (opts : RequiredOptions) (gen : GenOracle)
    (allChunks : List String) : List String :=
  mapWithIndex (fun index chunk => summarizeChunk opts gen chunk index) 0 allChunks

/-- `generateContextsForChunks` (the unbatched two-pass variant), as a
function of a correctly-typed chunk list: pass 1 summarizes every chunk,
pass 2 contextualizes every chunk against the full summary list.  The
surrounding `try/catch` only logs and rethrows. -/
def generateContextsForChunks (opts : RequiredOptions) (gen : GenOracle)
    (allChunks : List String) (metadata : Metadata) : Except JsError (List String) :=
  mapWithIndexM (fun index chunk =>
    generateContextForChunk opts gen chunk index
      (pass1Summaries opts gen allChunks) metadata) 0 allChunks

/-- One pass of `generateContextsWithRateLimit`: the
`for (let i = 0; i < allChunks.length; i += batchSize)` loop.  Each
iteration slices `allChunks.slice(i, Math.min(i + batchSize, length))`,
maps the per-chunk operation over the batch with global indices `i + idx`
(`Promise.all` within the batch), and appends the batch results.  The
loop is fuel-driven; `allChunks.length` fuel suffices for `batchSize ≥ 1`.
The inter-batch `delayMs` sleep has no observable effect here. -/
def batchedMapWithIndex {β : Type} (f : Nat → String → β) (allChunks : List String)
    (batchSize : Nat) : Nat → Nat → List β
  | 0, _ => []
  | fuel + 1, i =>
    if i < allChunks.length then
      mapWithIndex (fun idx chunk => f (i + idx) chunk) 0
        ((allChunks.drop i).take (min (i + batchSize) allChunks.length - i))
        ++ batchedMapWithIndex f allChunks batchSize fuel (i + batchSize)
    else []

/-- Fallible version of `batchedMapWithIndex`, for pass 2 of
`generateContextsWithRateLimit`: a failing batch member rejects the batch
(`Promise.all`) and hence the whole call; no further batch is started. -/
def batchedMapWithIndexM {β : Type} (f : Nat → String → Except JsError β)
    (allChunks : List String) (batchSize : Nat) : Nat → Nat → Except JsError (List β)
  | 0, _ => .ok []
  | fuel + 1, i =>
    if i < allChunks.length then
      match mapWithIndexM (fun idx chunk => f (i + idx) chunk) 0
        ((allChunks.drop i).take (min (i + batchSize) allChunks.length - i)) with
      | .error e => .error e
      | .ok batchResults =>
        match batchedMapWithIndexM f allChunks batchSize fuel (i + batchSize) with
        | .error e => .error e
        | .ok rest => .ok (batchResults ++ rest)
    else .ok []

/-- `generateContextsWithRateLimit` (the rate-limited two-pass variant) as
a function of a correctly-typed chunk list: both passes run through the
batching loop; `delayMs` only affects timing and is ignored by the value
semantics. -/
def generateContextsWithRateLimit (opts : RequiredOptions) (gen : GenOracle)
    (allChunks : List String) (metadata : Metadata) (batchSize delayMs : Nat) :
    Except JsError (List String) :=
  batchedMapWithIndexM (fun index chunk =>
    generateContextForChunk opts gen chunk index
      (batchedMapWithIndex (fun index2 chunk2 => summarizeChunk opts gen chunk2 index2)
        allChunks batchSize allChunks.length 0) metadata)
    allChunks batchSize allChunks.length 0

/-- Oracle that always fails, for the witnesses below. -/
def genAlwaysFail : GenOracle := fun _ => Except.error "boom"

/-- Oracle that always answers with a fixed context string. -/
def genConst : GenOracle := fun _ => Except.ok "ctx"

/-- The options produced by the constructor with no overrides. -/
def optsDefault : RequiredOptions := defaultOptions ⟨none, none, none, none⟩

/-- JavaScript runtime values that can reach the context-service entry
points through the ill-typed ingestion call site: the raw document string,
the chunk-content array, or the metadata object. -/
inductive JsVal where
  | str : String → JsVal
  | arrS : List String → JsVal
  | obj : Metadata → JsVal
deriving DecidableEq

/-- Property access `metadata?.title` etc. on a runtime value: on a string
or an array every such field is `undefined`. -/
def metadataOfJs : JsVal → Metadata
  | .obj m => m
  | _ => ⟨none, none, none⟩

/-- `generateContextsForChunks` as reached at runtime with a dynamically
typed first argument.  The function immediately evaluates
`allChunks.map(...)`: on an actual array this is the well-typed two-pass
computation; on a string or plain object there is no `map` method, so the
call throws a `TypeError`, which the surrounding `try/catch` only logs
and rethrows. -/
def generateContextsForChunksJs (opts : RequiredOptions) (gen : GenOracle)
    (allChunks metadata : JsVal) : Except JsError (List String) :=
  match allChunks with
  | .arrS chunks => generateContextsForChunks opts gen chunks (metadataOfJs metadata)
  | .str _ => .error (.typeError "allChunks.map is not a function")
  | .obj _ => .error (.typeError "allChunks.map is not a function")

/-- `generateContextsWithRateLimit` as reached at runtime through the
ill-typed call site, where `batchSize` receives the metadata *object*.
Traced against JavaScript semantics:
with `allChunks` a string, the loop guard `i < allChunks.length` uses the
string length; when it is 0 both passes are skipped and `[]` is returned,
otherwise the first iteration computes `batch = allChunks.slice(...)` — a
string, whatever the numeric coercions produce — and `batch.map` throws a
`TypeError` (strings have no `map`), with no `try/catch` in this function.
With `allChunks` an array and an object `batchSize`, `i + batchSize`
coerces to a non-numeric string, `Math.min` gives `NaN`, the first batch
`slice(0, NaN)` is empty, `i += batchSize` makes `i` non-numeric, the
guard fails, and both passes return `[]`.  With `allChunks` an object the
guard `i < undefined` is false at once and `[]` is returned.  The numeric
`delayMs` (which receives the original `batchSize` number) only affects
timing. -/
def generateContextsWithRateLimitJs (opts : RequiredOptions) (gen : GenOracle)
    (allChunks metadata : JsVal) (batchSize : Metadata) (delayMs : Nat) :
    Except JsError (List String) :=
  match allChunks with
  | .str s =>
    if s.length = 0 then .ok []
    else .error (.typeError "batch.map is not a function")
  | .arrS _ => .ok []
  | .obj _ => .ok []

/-- The slice of each stored chunk document that the claims are about:
the stored text (context prepended when available), the chunk position,
and the two chunk-level metadata fields `originalContent` and
`contextualPrefix`.  Ids, timestamps, and the embedding vector handed to
the vector store are external and not modelled. -/
structure StoredChunk where
  content : String
  chunkIndex : Nat
  originalContent : String
  contextualPrefix : String
deriving DecidableEq

/-- The model of `ContextualRetrievalService`: its resolved options and
its injected text-generation capability. -/
structure ContextualRetrievalServiceM where
  opts : RequiredOptions
  gen : GenOracle

/-- Steps 3 and 4 of `ingestDocumentWithContextualRetrieval`: generate
embeddings for the contextualized chunks (failure propagates) and store
one document per chunk, the stored `content` being the contextualized
text and `contextualPrefix` being `contexts[i]` defaulted to the empty string. -/
def ingestStoreChunks (embedFn : List String → Except JsError Unit)
    (chunks : List DocumentChunk) (contextualizedChunks contexts : List String) :
    Except JsError (List StoredChunk) :=
  match embedFn contextualizedChunks with
  | .error e => .error e
  | .ok _ =>
    .ok (mapWithIndex (fun i c =>
      { content := contextualizedChunks.getD i "",
        chunkIndex := c.chunkIndex,
        originalContent := c.content,
        contextualPrefix := contexts.getD i "" }) 0 chunks)

/-- `ingestDocumentWithContextualRetrieval` from
`src/services/document-ingestion.ts`.  `embedFn` stands for
`embeddingService.generateEmbeddings`, of which only success or failure is
observable here.  The context-generation step reproduces the original
ill-typed calls: `content` is passed where the chunk array belongs, the
chunk array where `metadata` belongs and (in the rate-limited call) the
metadata object where `batchSize` belongs — see
`generateContextsForChunksJs` / `generateContextsWithRateLimitJs`. -/
def ingestDocumentWithContextualRetrieval
    (contextService : Option ContextualRetrievalServiceM)
    (embedFn : List String → Except JsError Unit)
    (content : String) (metadata : Metadata)
    (chunkSize overlap : Nat) (useContextual useRateLimit : Bool)
    (batchSize : Nat) : Except JsError (List StoredChunk) :=
  let chunks := chunkDocument content chunkSize overlap
  let contextsE : Except JsError (List String) :=
    match contextService, useContextual with
    | some svc, true =>
      if useRateLimit then
        generateContextsWithRateLimitJs svc.opts svc.gen (.str content)
          (.arrS (chunks.map (fun c => c.content))) metadata batchSize
      else
        generateContextsForChunksJs svc.opts svc.gen (.str content)
          (.arrS (chunks.map (fun c => c.content)))
    | _, _ => .ok []
  match contextsE with
  | .error e => .error e
  | .ok contexts =>
    ingestStoreChunks embedFn chunks
      (match contextService, useContextual with
       | some _, true =>
         mapWithIndex (fun i c =>
           if contexts.getD i "" ≠ "" then contexts.getD i "" ++ "\n\n" ++ c.content
           else c.content) 0 chunks
       | _, _ => chunks.map (fun c => c.content))
      contexts

/-- A concrete context service and embedding oracle for the C1
counterexample and witness. -/
def svcConst : ContextualRetrievalServiceM := ⟨optsDefault, genConst⟩

def embedOk : List String → Except JsError Unit := fun _ => Except.ok ()

theorem chunkLoop_nil (words : List String) (cs ov fuel s ci : Nat)
    (h : words.length ≤ s) : chunkLoop words cs ov fuel s ci = [] := by
  cases fuel with
  | zero => rfl
  | succ f => simp [chunkLoop, Nat.not_lt.mpr h]

theorem chunkLoop_cons (words : List String) (cs ov fuel s ci : Nat)
    (h : s < words.length) :
    chunkLoop words cs ov (fuel + 1) s ci =
      { content := joinSep " " ((words.drop s).take (min (s + cs) words.length - s)),
        chunkIndex := ci, startOffset := s,
        endOffset := min (s + cs) words.length } ::
      chunkLoop words cs ov fuel
        (if cs ≤ ov then min (s + cs) words.length else s + (cs - ov)) (ci + 1) := by
  simp [chunkLoop, h]

theorem chunkLoop_head_start (words : List String) (cs ov fuel s ci : Nat)
    (c : DocumentChunk) (rest : List DocumentChunk)
    (h : chunkLoop words cs ov fuel s ci = c :: rest) : c.startOffset = s := by
  cases fuel with
  | zero => simp [chunkLoop] at h
  | succ f =>
    by_cases hs : s < words.length
    · rw [chunkLoop_cons words cs ov f s ci hs] at h
      cases h
      rfl
    · rw [chunkLoop_nil words cs ov (f + 1) s ci (Nat.not_lt.mp hs)] at h
      simp at h

theorem nextStart_gt (cs ov s L : Nat) (hcs : 1 ≤ cs) (hs : s < L) :
    s < if cs ≤ ov then min (s + cs) L else s + (cs - ov) := by
  by_cases h : cs ≤ ov <;> simp [h] <;> omega

theorem chunkLoop_fuel_irrelevant (words : List String) (cs ov : Nat) (hcs : 1 ≤ cs) :
    ∀ f1 f2 s ci, words.length - s ≤ f1 → words.length - s ≤ f2 →
      chunkLoop words cs ov f1 s ci = chunkLoop words cs ov f2 s ci := by
  intro f1
  induction f1 with
  | zero =>
    intro f2 s ci h1 _
    rw [chunkLoop_nil words cs ov 0 s ci (by omega), chunkLoop_nil words cs ov f2 s ci (by omega)]
  | succ f ih =>
    intro f2 s ci h1 h2
    by_cases hs : s < words.length
    · cases f2 with
      | zero => omega
      | succ f2' =>
        rw [chunkLoop_cons words cs ov f s ci hs, chunkLoop_cons words cs ov f2' s ci hs]
        have hgt := nextStart_gt cs ov s words.length hcs hs
        exact congrArg _ (ih f2' _ (ci + 1) (by omega) (by omega))
    · rw [chunkLoop_nil words cs ov (f + 1) s ci (Nat.not_lt.mp hs),
        chunkLoop_nil words cs ov f2 s ci (Nat.not_lt.mp hs)]

theorem chunkLoop_shape (words : List String) (cs ov : Nat) :
    ∀ fuel s ci c, c ∈ chunkLoop words cs ov fuel s ci →
      c.startOffset < words.length ∧
      c.endOffset = min (c.startOffset + cs) words.length ∧
      c.content = joinSep " " ((words.drop c.startOffset).take (c.endOffset - c.startOffset)) := by
  intro fuel
  induction fuel with
  | zero => intro s ci c hc; simp [chunkLoop] at hc
  | succ f ih =>
    intro s ci c hc
    by_cases hs : s < words.length
    · rw [chunkLoop_cons words cs ov f s ci hs] at hc
      rw [List.mem_cons] at hc
      rcases hc with hc | hc
      · subst hc; exact ⟨hs, rfl, rfl⟩
      · exact ih _ _ c hc
    · rw [chunkLoop_nil words cs ov (f + 1) s ci (Nat.not_lt.mp hs)] at hc
      simp at hc

theorem chunkLoop_chain (words : List String) (cs ov : Nat) :
    ∀ fuel s ci, List.Chain'
      (fun c1 c2 => c2.startOffset =
        if cs ≤ ov then c1.endOffset else c1.startOffset + (cs - ov))
      (chunkLoop words cs ov fuel s ci) := by
  intro fuel
  induction fuel with
  | zero => intro s ci; simp [chunkLoop]
  | succ f ih =>
    intro s ci
    by_cases hs : s < words.length
    · rw [chunkLoop_cons words cs ov f s ci hs]
      rw [List.chain'_cons']
      refine ⟨?_, ih _ _⟩
      intro b hb
      have hb2 : ∃ rest, chunkLoop words cs ov f
          (if cs ≤ ov then min (s + cs) words.length else s + (cs - ov)) (ci + 1)
          = b :: rest := by
        cases hloop : chunkLoop words cs ov f
            (if cs ≤ ov then min (s + cs) words.length else s + (cs - ov)) (ci + 1) with
        | nil => simp [hloop] at hb
        | cons x xs => rw [hloop] at hb; simp at hb; exact ⟨xs, by rw [hb]⟩
      obtain ⟨rest, hrest⟩ := hb2
      have := chunkLoop_head_start words cs ov f _ (ci + 1) b rest hrest
      simpa using this
    · rw [chunkLoop_nil words cs ov (f + 1) s ci (Nat.not_lt.mp hs)]
      simp

theorem chunkLoop_coverage (words : List String) (cs ov : Nat)
    (hov : ov < cs) :
    ∀ fuel s ci, words.length - s ≤ fuel → ∀ i, s ≤ i → i < words.length →
      ∃ c ∈ chunkLoop words cs ov fuel s ci, c.startOffset ≤ i ∧ i < c.endOffset := by
  intro fuel
  induction fuel with
  | zero => intro s ci h i hsi hi; omega
  | succ f ih =>
    intro s ci h i hsi hi
    have hs : s < words.length := by omega
    rw [chunkLoop_cons words cs ov f s ci hs]
    by_cases hie : i < min (s + cs) words.length
    · exact ⟨_, List.mem_cons_self _ _, hsi, hie⟩
    · have hnext : s + (cs - ov) ≤ i := by omega
      have hfuel : words.length - (s + (cs - ov)) ≤ f := by omega
      obtain ⟨c, hc, hci⟩ := ih (s + (cs - ov)) (ci + 1) hfuel i hnext hi
      have hcseq : ¬ cs ≤ ov := by omega
      refine ⟨c, List.mem_cons_of_mem _ ?_, hci⟩
      simpa [hcseq] using hc

theorem splitWs_parts_ne_nil : ∀ l : List Char, (∀ cur, splitWsAux l cur ≠ []) ∧ splitWsSkip l ≠ [] := by
  intro l
  induction l with
  | nil => exact ⟨fun cur => by simp [splitWsAux], by simp [splitWsSkip]⟩
  | cons c rest ih =>
    refine ⟨fun cur => ?_, ?_⟩
    · simp only [splitWsAux]
      split
      · simp
      · exact ih.1 _
    · simp only [splitWsSkip]
      split
      · exact ih.2
      · exact ih.1 _

theorem splitWs_ne_nil (s : String) : splitWs s ≠ [] :=
  (splitWs_parts_ne_nil s.data).1 []

theorem splitWs_length_pos (s : String) : 1 ≤ (splitWs s).length :=
  List.length_pos.mpr (splitWs_ne_nil s)

theorem chunkDocument_eq_loop (content : String) (cs ov : Nat) :
    chunkDocument content cs ov
      = chunkLoop (splitWs content) cs ov (splitWs content).length 0 0 := by
  have hne : (splitWs content).length ≠ 0 := by
    have := splitWs_length_pos content
    omega
  simp [chunkDocument, hne]

/-- C2: for every document (the tokenization always has length `L ≥ 1`)
and parameters with `unitSize ≥ 1` and `0 ≤ overlap < unitSize`, the union
of the `[startOffset, endOffset)` intervals of the chunks returned by
`chunkDocument` is exactly `[0, L)`: every token index lies inside some
chunk interval, and every chunk interval stays inside `[0, L)`. -/
theorem chunkDocument_coverage (content : String) (unitSize overlap : Nat)
    (hL : 1 ≤ (splitWs content).length) (_hcs : 1 ≤ unitSize)
    (hov : overlap < unitSize) :
    (∀ i, i < (splitWs content).length →
      ∃ c ∈ chunkDocument content unitSize overlap, c.startOffset ≤ i ∧ i < c.endOffset) ∧
    (∀ c ∈ chunkDocument content unitSize overlap,
      c.endOffset ≤ (splitWs content).length) := by
  rw [chunkDocument_eq_loop]
  constructor
  · intro i hi
    exact chunkLoop_coverage (splitWs content) unitSize overlap hov
      (splitWs content).length 0 0 (by omega) i (Nat.zero_le i) hi
  · intro c hc
    have := chunkLoop_shape (splitWs content) unitSize overlap _ 0 0 c hc
    omega

/-- Witness for `chunkDocument_coverage` at a concrete five-token document. -/
theorem chunkDocument_coverage_witness :
    (1 ≤ (splitWs "a b c d e").length ∧ 1 ≤ 2 ∧ 1 < 2) ∧
    ((∀ i, i < (splitWs "a b c d e").length →
      ∃ c ∈ chunkDocument "a b c d e" 2 1, c.startOffset ≤ i ∧ i < c.endOffset) ∧
    (∀ c ∈ chunkDocument "a b c d e" 2 1,
      c.endOffset ≤ (splitWs "a b c d e").length)) :=
  ⟨⟨by decide, by decide, by decide⟩,
   chunkDocument_coverage "a b c d e" 2 1 (by decide) (by decide) (by decide)⟩

/-- C4: for `unitSize ≥ 1` and arbitrary `overlap ≥ 0` (in particular the
degenerate case `overlap ≥ unitSize`), `chunkDocument` terminates — any
fuel bound of at least the token count yields the same finite chunk list —
and consecutive chunks have strictly increasing `startOffset`, with the
degenerate-overlap guard forcing the next `startOffset` to be the current
endOffset of the current chunk whenever `overlap ≥ unitSize`. -/
theorem chunkDocument_terminates (content : String) (unitSize overlap : Nat)
    (hcs : 1 ≤ unitSize) :
    (∀ fuel, (splitWs content).length ≤ fuel →
      chunkLoop (splitWs content) unitSize overlap fuel 0 0
        = chunkDocument content unitSize overlap) ∧
    List.Chain' (fun c1 c2 => c1.startOffset < c2.startOffset ∧
      (unitSize ≤ overlap → c2.startOffset = c1.endOffset))
      (chunkDocument content unitSize overlap) := by
  constructor
  · intro fuel hf
    rw [chunkDocument_eq_loop]
    exact chunkLoop_fuel_irrelevant (splitWs content) unitSize overlap hcs
      fuel _ 0 0 (by omega) (by omega)
  · rw [chunkDocument_eq_loop]
    have hchain := chunkLoop_chain (splitWs content) unitSize overlap
      (splitWs content).length 0 0
    rw [List.chain'_iff_get] at hchain ⊢
    intro i hi
    have hcR := hchain i hi
    have hm1 := List.get_mem
      (chunkLoop (splitWs content) unitSize overlap (splitWs content).length 0 0) i (by omega)
    have hm2 := List.get_mem
      (chunkLoop (splitWs content) unitSize overlap (splitWs content).length 0 0) (i + 1) (by omega)
    have hsh1 := chunkLoop_shape (splitWs content) unitSize overlap _ 0 0 _ hm1
    have hsh2 := chunkLoop_shape (splitWs content) unitSize overlap _ 0 0 _ hm2
    by_cases hco : unitSize ≤ overlap
    · simp only [hco, if_true] at hcR
      refine ⟨?_, fun _ => hcR⟩
      rw [hcR, hsh1.2.1]
      omega
    · simp only [hco, if_false] at hcR
      exact ⟨by omega, fun h => absurd h hco⟩

/-- Witness for `chunkDocument_terminates` on a five-token document with
degenerate parameters (`overlap > unitSize`). -/
theorem chunkDocument_terminates_witness :
    (1 ≤ 2) ∧
    ((∀ fuel, (splitWs "v w x y z").length ≤ fuel →
      chunkLoop (splitWs "v w x y z") 2 3 fuel 0 0 = chunkDocument "v w x y z" 2 3) ∧
    List.Chain' (fun c1 c2 => c1.startOffset < c2.startOffset ∧
      (2 ≤ 3 → c2.startOffset = c1.endOffset)) (chunkDocument "v w x y z" 2 3)) :=
  ⟨by decide, chunkDocument_terminates "v w x y z" 2 3 (by decide)⟩

/-- C5 refuted: `chunkDocument "" 20 5` returns one chunk with empty
content and `startOffset = 0`, but its `endOffset` is `1`, not `0` —
the empty string tokenizes to the single empty token, and the loop sets
`endOffset = min(0 + 20, 1) = 1`. -/
theorem chunkDocument_empty_counterexample :
    (chunkDocument "" 20 5).map DocumentChunk.endOffset ≠ [0] := by
  decide

/-- C5 (amended): `chunkDocument "" 20 5` returns exactly one chunk whose
content is `""`, whose `startOffset` is `0`, and whose `endOffset` is `1`. -/
theorem chunkDocument_empty_amended :
    chunkDocument "" 20 5 = [⟨"", 0, 0, 1⟩] := by
  decide

/-- C10: the character-based chunker returns zero chunks on the empty
string (for any parameters), while the word-based chunker returns exactly
one chunk on the empty string (for any `chunkSize ≥ 1`): the two variants
disagree on zero-length input. -/
theorem chunkers_disagree_on_empty :
    ∀ chunkSizeChars overlapChars chunkSize overlap : Nat,
      chunkDocumentByCharacters "" chunkSizeChars overlapChars = [] ∧
      (1 ≤ chunkSize → (chunkDocument "" chunkSize overlap).length = 1) := by
  intro csc ovc cs ov
  refine ⟨rfl, fun hcs => ?_⟩
  have h1 : splitWs "" = [""] := rfl
  have hres : chunkDocument "" cs ov = chunkLoop [""] cs ov 1 0 0 := by
    rw [chunkDocument_eq_loop, h1]
    rfl
  rw [hres, chunkLoop_cons [""] cs ov 0 0 0 (by simp)]
  simp [chunkLoop]

/-- Witness for `chunkers_disagree_on_empty` at the source defaults. -/
theorem chunkers_disagree_on_empty_witness :
    chunkDocumentByCharacters "" 3200 400 = [] ∧
    (chunkDocument "" 800 100).length = 1 :=
  ⟨(chunkers_disagree_on_empty 3200 400 800 100).1,
   (chunkers_disagree_on_empty 3200 400 800 100).2 (by decide)⟩

theorem string_mk_data (s : String) : String.mk s.data = s := by
  cases s
  rfl

theorem string_of_data_nil (s : String) (h : s.data = []) : s = "" := by
  cases s with
  | mk d => cases h; rfl

theorem splitWsSkip_all_ws (l : List Char) (h : ∀ c ∈ l, isWs c = true) :
    splitWsSkip l = [""] := by
  induction l with
  | nil => rfl
  | cons c rest ih =>
    simp only [splitWsSkip]
    rw [if_pos (h c (List.mem_cons_self c rest))]
    exact ih fun x hx => h x (List.mem_cons_of_mem c hx)

theorem splitWs_all_ws (s : String) (hne : s.data ≠ []) (h : ∀ c ∈ s.data, isWs c = true) :
    splitWs s = ["", ""] := by
  unfold splitWs
  cases hd : s.data with
  | nil => exact absurd hd hne
  | cons c rest =>
    simp only [splitWsAux]
    rw [if_pos (h c (hd ▸ List.mem_cons_self c rest))]
    rw [splitWsSkip_all_ws rest fun x hx => h x (hd ▸ List.mem_cons_of_mem c hx)]
    rfl

theorem chunkDocument_single_of_fits (s : String) (cs ov : Nat)
    (h : ov + (splitWs s).length ≤ cs) : (chunkDocument s cs ov).length = 1 := by
  have hL := splitWs_length_pos s
  rw [chunkDocument_eq_loop]
  cases hfl : (splitWs s).length with
  | zero => omega
  | succ f =>
    rw [chunkLoop_cons (splitWs s) cs ov f 0 0 (by omega)]
    have hcso : ¬ cs ≤ ov := by omega
    rw [if_neg hcso, chunkLoop_nil (splitWs s) cs ov f (0 + (cs - ov)) 1 (by omega)]
    rfl

/-- C6 refuted: the single space `" "` is a whitespace-only document, yet
it tokenizes to two tokens (`["", ""]` — the behaviour that the JavaScript
`split(/\s+/)` exhibits on leading and trailing separators), and with
`unitSize = 1` and `overlap = 0` the windower returns two chunks, not one. -/
theorem whitespace_only_counterexample :
    (splitWs " ").length = 2 ∧ (chunkDocument " " 1 0).length = 2 := by
  decide

/-- C6 (amended): the empty string tokenizes to exactly one (empty) token
while a nonempty whitespace-only document tokenizes to exactly two empty
tokens; consequently a whitespace-only document yields exactly one chunk
whenever `unitSize ≥ overlap + 2` (in particular at the source defaults),
but not for every `unitSize ≥ 1`. -/
theorem whitespace_only_amended :
    splitWs "" = [""] ∧
    (∀ s : String, s ≠ "" → s.data.all isWs = true → splitWs s = ["", ""]) ∧
    (∀ (s : String) (unitSize overlap : Nat), s.data.all isWs = true →
      overlap + 2 ≤ unitSize → (chunkDocument s unitSize overlap).length = 1) := by
  refine ⟨rfl, ?_, ?_⟩
  · intro s hne hws
    refine splitWs_all_ws s (fun hd => hne (string_of_data_nil s hd)) ?_
    exact fun c hc => List.all_eq_true.mp hws c hc
  · intro s cs ov hws hfit
    apply chunkDocument_single_of_fits
    have hlen : (splitWs s).length ≤ 2 := by
      by_cases hse : s = ""
      · subst hse; decide
      · rw [splitWs_all_ws s (fun hd => hse (string_of_data_nil s hd))
          (fun c hc => List.all_eq_true.mp hws c hc)]
        decide
    omega

/-- Witness for `whitespace_only_amended` on the whitespace-only document
`"   "` with `unitSize = 20`, `overlap = 5`. -/
theorem whitespace_only_witness :
    ("   " ≠ "" ∧ ("   " : String).data.all isWs = true ∧ 5 + 2 ≤ 20) ∧
    splitWs "   " = ["", ""] ∧ (chunkDocument "   " 20 5).length = 1 :=
  ⟨⟨by decide, by decide, by decide⟩,
   whitespace_only_amended.2.1 "   " (by decide) (by decide),
   whitespace_only_amended.2.2 "   " 20 5 (by decide) (by decide)⟩

theorem splitWsAux_no_sep (t : List Char) : ∀ cur, (∀ c ∈ t, isWs c = false) →
    splitWsAux t cur = [String.mk (cur.reverse ++ t)] := by
  induction t with
  | nil => intro cur _; simp [splitWsAux]
  | cons c r ih =>
    intro cur h
    have hc : isWs c = false := h c (List.mem_cons_self c r)
    simp only [splitWsAux, hc, Bool.false_eq_true, if_false]
    rw [ih (c :: cur) (fun x hx => h x (List.mem_cons_of_mem c hx))]
    simp

theorem splitWsAux_token_sep (t : List Char) : ∀ (cur rest : List Char),
    (∀ c ∈ t, isWs c = false) →
    splitWsAux (t ++ ' ' :: rest) cur = String.mk (cur.reverse ++ t) :: splitWsSkip rest := by
  induction t with
  | nil => intro cur rest _; simp [splitWsAux, isWs]
  | cons c r ih =>
    intro cur rest h
    have hc : isWs c = false := h c (List.mem_cons_self c r)
    simp only [List.cons_append, splitWsAux, hc, Bool.false_eq_true, if_false, List.append_eq]
    rw [ih (c :: cur) rest (fun x hx => h x (List.mem_cons_of_mem c hx))]
    simp

theorem joinSep_cons_data (t u : String) (us : List String) :
    (joinSep " " (t :: u :: us)).data = t.data ++ ' ' :: (joinSep " " (u :: us)).data := by
  show (t ++ " " ++ joinSep " " (u :: us)).data = _
  rw [String.data_append, String.data_append]
  have hsp : (" " : String).data = [' '] := rfl
  rw [hsp]
  simp

theorem splitWsSkip_joinSep : ∀ ts : List String, ts ≠ [] →
    (∀ t ∈ ts, ∀ c ∈ t.data, isWs c = false) → TailNE ts →
    splitWsSkip (joinSep " " ts).data = ts := by
  intro ts
  induction ts with
  | nil => intro h; exact absurd rfl h
  | cons t rest ih =>
    intro _ hws htail
    cases rest with
    | nil =>
      show splitWsSkip t.data = [t]
      cases ht : t.data with
      | nil =>
        have ht2 : t = "" := string_of_data_nil t ht
        rw [ht2]
        rfl
      | cons c cr =>
        have hmem : ∀ x ∈ t.data, isWs x = false := hws t (List.mem_cons_self t [])
        have hc : isWs c = false := hmem c (by rw [ht]; exact List.mem_cons_self c cr)
        simp only [splitWsSkip, hc, Bool.false_eq_true, if_false]
        have hcr : ∀ x ∈ cr, isWs x = false :=
          fun x hx => hmem x (by rw [ht]; exact List.mem_cons_of_mem c hx)
        rw [splitWsAux_no_sep cr [c] hcr]
        have hmk : String.mk (c :: cr) = t := by rw [← ht]
        simp [hmk]
    | cons u us =>
      obtain ⟨htne, htail2⟩ : t ≠ "" ∧ TailNE (u :: us) := htail
      obtain ⟨c, cr, ht⟩ : ∃ c cr, t.data = c :: cr := by
        cases hd : t.data with
        | nil => exact absurd (string_of_data_nil t hd) htne
        | cons c cr => exact ⟨c, cr, rfl⟩
      rw [joinSep_cons_data t u us, ht]
      have hmem : ∀ x ∈ t.data, isWs x = false := hws t (List.mem_cons_self t (u :: us))
      have hc : isWs c = false := hmem c (by rw [ht]; exact List.mem_cons_self c cr)
      simp only [List.cons_append, splitWsSkip, hc, Bool.false_eq_true, if_false,
        List.append_eq]
      have hcr : ∀ x ∈ cr, isWs x = false :=
        fun x hx => hmem x (by rw [ht]; exact List.mem_cons_of_mem c hx)
      rw [splitWsAux_token_sep cr [c] (joinSep " " (u :: us)).data hcr]
      rw [ih (by simp) (fun x hx => hws x (List.mem_cons_of_mem t hx)) htail2]
      have hmk : String.mk (c :: cr) = t := by rw [← ht]
      simp [hmk]

/-- Splitting a space-joined token list recovers the tokens, provided the
tokens are whitespace-free and only the first or last token may be empty —
exactly the shape `splitWs` itself produces. -/
theorem splitWs_joinSep (ts : List String) (hne : ts ≠ [])
    (hws : ∀ t ∈ ts, ∀ c ∈ t.data, isWs c = false) (hint : InteriorNE ts) :
    splitWs (joinSep " " ts) = ts := by
  cases ts with
  | nil => exact absurd rfl hne
  | cons t rest =>
    cases rest with
    | nil =>
      show splitWsAux t.data [] = [t]
      rw [splitWsAux_no_sep t.data [] (hws t (List.mem_cons_self t []))]
      simp [string_mk_data]
    | cons u us =>
      show splitWsAux (joinSep " " (t :: u :: us)).data [] = t :: u :: us
      rw [joinSep_cons_data t u us]
      rw [splitWsAux_token_sep t.data [] (joinSep " " (u :: us)).data
        (hws t (List.mem_cons_self t (u :: us)))]
      rw [splitWsSkip_joinSep (u :: us) (by simp)
        (fun x hx => hws x (List.mem_cons_of_mem t hx)) hint]
      simp [string_mk_data]

theorem splitWs_parts_wsFree : ∀ l : List Char,
    (∀ cur, (∀ c ∈ cur, isWs c = false) →
      ∀ t ∈ splitWsAux l cur, ∀ c ∈ t.data, isWs c = false) ∧
    (∀ t ∈ splitWsSkip l, ∀ c ∈ t.data, isWs c = false) := by
  intro l
  induction l with
  | nil =>
    constructor
    · intro cur hcur t ht c hc
      simp only [splitWsAux, List.mem_singleton] at ht
      subst ht
      exact hcur c (List.mem_reverse.mp hc)
    · intro t ht c hc
      simp only [splitWsSkip, List.mem_singleton] at ht
      subst ht
      simp at hc
  | cons ch r ih =>
    constructor
    · intro cur hcur t ht c hc
      simp only [splitWsAux] at ht
      split at ht
      next hw =>
        rcases List.mem_cons.mp ht with h1 | h1
        · subst h1; exact hcur c (List.mem_reverse.mp hc)
        · exact ih.2 t h1 c hc
      next hw =>
        refine ih.1 (ch :: cur) ?_ t ht c hc
        intro x hx
        rcases List.mem_cons.mp hx with h1 | h1
        · subst h1; simpa using hw
        · exact hcur x h1
    · intro t ht c hc
      simp only [splitWsSkip] at ht
      split at ht
      next hw => exact ih.2 t ht c hc
      next hw =>
        refine ih.1 [ch] ?_ t ht c hc
        intro x hx
        rw [List.mem_singleton] at hx
        subst hx
        simpa using hw

theorem string_mk_ne_empty (l : List Char) (h : l ≠ []) : String.mk l ≠ "" := by
  intro he
  exact h (by simpa using congrArg String.data he)

theorem splitWs_parts_tailNE : ∀ l : List Char,
    (∀ cur, cur ≠ [] → TailNE (splitWsAux l cur)) ∧ TailNE (splitWsSkip l) := by
  intro l
  induction l with
  | nil =>
    constructor
    · intro cur _
      simp [splitWsAux, TailNE]
    · simp [splitWsSkip, TailNE]
  | cons ch r ih =>
    constructor
    · intro cur hcur
      simp only [splitWsAux]
      split
      next hw =>
        obtain ⟨y, ys, hys⟩ := List.exists_cons_of_ne_nil ((splitWs_parts_ne_nil r).2)
        rw [hys]
        refine ⟨string_mk_ne_empty cur.reverse ?_, ?_⟩
        · intro hrev
          exact hcur (by simpa using hrev)
        · rw [← hys]
          exact ih.2
      next hw => exact ih.1 (ch :: cur) (List.cons_ne_nil ch cur)
    · simp only [splitWsSkip]
      split
      next hw => exact ih.2
      next hw => exact ih.1 [ch] (List.cons_ne_nil ch [])

theorem splitWsAux_interiorNE : ∀ (l : List Char) (cur : List Char),
    InteriorNE (splitWsAux l cur) := by
  intro l
  induction l with
  | nil => intro cur; simp [splitWsAux, InteriorNE, TailNE]
  | cons ch r ih =>
    intro cur
    simp only [splitWsAux]
    split
    next hw =>
      show TailNE (splitWsSkip r)
      exact (splitWs_parts_tailNE r).2
    next hw => exact ih (ch :: cur)

theorem splitWs_wsFree (s : String) : ∀ t ∈ splitWs s, ∀ c ∈ t.data, isWs c = false :=
  (splitWs_parts_wsFree s.data).1 [] (by simp)

theorem splitWs_interiorNE (s : String) : InteriorNE (splitWs s) :=
  splitWsAux_interiorNE s.data []

theorem tailNE_get : ∀ (l : List String), TailNE l →
    ∀ i (h : i < l.length), i + 1 < l.length → l.get ⟨i, h⟩ ≠ "" := by
  intro l
  induction l with
  | nil => intro _ i h; simp at h
  | cons t rest ih =>
    intro htail i hi hi1
    cases rest with
    | nil => simp at hi1
    | cons u us =>
      obtain ⟨h1, h2⟩ : t ≠ "" ∧ TailNE (u :: us) := htail
      cases i with
      | zero => exact h1
      | succ j =>
        exact ih h2 j (by simp only [List.length_cons] at hi ⊢; omega)
          (by simp only [List.length_cons] at hi1 ⊢; omega)

theorem get_tailNE : ∀ (l : List String),
    (∀ i (h : i < l.length), i + 1 < l.length → l.get ⟨i, h⟩ ≠ "") → TailNE l := by
  intro l
  induction l with
  | nil => intro _; trivial
  | cons t rest ih =>
    intro h
    cases rest with
    | nil => trivial
    | cons u us =>
      refine ⟨h 0 (by simp) (by simp only [List.length_cons]; omega), ih ?_⟩
      intro j hj hj1
      exact h (j + 1) (by simp only [List.length_cons] at hj ⊢; omega)
        (by simp only [List.length_cons] at hj1 ⊢; omega)

theorem interiorNE_get (l : List String) (h : InteriorNE l) :
    ∀ i (hi : i < l.length), 0 < i → i + 1 < l.length → l.get ⟨i, hi⟩ ≠ "" := by
  cases l with
  | nil => intro i hi; simp at hi
  | cons t rest =>
    intro i hi h0 h1
    cases i with
    | zero => omega
    | succ j =>
      have htail : TailNE rest := h
      exact tailNE_get rest htail j (by simp only [List.length_cons] at hi ⊢; omega)
        (by simp only [List.length_cons] at h1 ⊢; omega)

theorem interiorNE_slice (l : List String) (hl : InteriorNE l) (s n : Nat) :
    InteriorNE ((l.drop s).take n) := by
  cases hsl : (l.drop s).take n with
  | nil => trivial
  | cons t rest =>
    show TailNE rest
    apply get_tailNE
    intro i hi hi1
    have hminfact : ((l.drop s).take n).length = min n (l.length - s) := by
      simp [List.length_take, List.length_drop]
    have hlen : ((l.drop s).take n).length = rest.length + 1 := by rw [hsl]; simp
    have hi2n : i + 1 < n := by omega
    have hsj : s + (i + 1) < l.length := by omega
    have hv : rest.get? i = l.get? (s + (i + 1)) := by
      rw [← List.get?_cons_succ (a := t), ← hsl,
        List.get?_take hi2n, List.get?_drop]
    have hchain : some (rest.get ⟨i, hi⟩) = some (l.get ⟨s + (i + 1), hsj⟩) :=
      (List.get?_eq_get hi).symm.trans (hv.trans (List.get?_eq_get hsj))
    rw [Option.some.inj hchain]
    exact interiorNE_get l hl (s + (i + 1)) hsj (by omega) (by omega)

theorem chunkLoop_tokens (content : String) (cs ov fuel s0 ci : Nat) (hcs : 1 ≤ cs)
    (c : DocumentChunk)
    (hc : c ∈ chunkLoop (splitWs content) cs ov fuel s0 ci) :
    splitWs c.content
      = ((splitWs content).drop c.startOffset).take (c.endOffset - c.startOffset) := by
  obtain ⟨hlt, hend, hcontent⟩ := chunkLoop_shape (splitWs content) cs ov fuel s0 ci c hc
  rw [hcontent]
  apply splitWs_joinSep
  · have hminfact : (((splitWs content).drop c.startOffset).take
        (c.endOffset - c.startOffset)).length
        = min (c.endOffset - c.startOffset) ((splitWs content).length - c.startOffset) := by
      simp [List.length_take, List.length_drop]
    intro hnil
    rw [hnil] at hminfact
    simp at hminfact
    omega
  · intro t ht
    exact splitWs_wsFree content t (List.drop_subset _ _ (List.take_subset _ _ ht))
  · exact interiorNE_slice _ (splitWs_interiorNE content) _ _

theorem slice_overlap (words : List String) (cs ov s1 : Nat)
    (hov1 : 1 ≤ ov) (hov2 : ov < cs)
    (hlen : ov ≤ ((words.drop (s1 + (cs - ov))).take
        (min (s1 + (cs - ov) + cs) words.length - (s1 + (cs - ov)))).length) :
    lastTokens ov ((words.drop s1).take (min (s1 + cs) words.length - s1))
      = firstTokens ov ((words.drop (s1 + (cs - ov))).take
          (min (s1 + (cs - ov) + cs) words.length - (s1 + (cs - ov)))) := by
  have hlen2 : ((words.drop (s1 + (cs - ov))).take
      (min (s1 + (cs - ov) + cs) words.length - (s1 + (cs - ov)))).length
      = min (min (s1 + (cs - ov) + cs) words.length - (s1 + (cs - ov)))
          (words.length - (s1 + (cs - ov))) := by
    simp [List.length_take, List.length_drop]
  rw [hlen2] at hlen
  have hkey : s1 + cs ≤ words.length := by omega
  have he1 : min (s1 + cs) words.length = s1 + cs := by omega
  rw [he1]
  have he2 : s1 + cs - s1 = cs := by omega
  rw [he2]
  have hlen1 : ((words.drop s1).take cs).length = cs := by
    simp only [List.length_take, List.length_drop]
    omega
  unfold lastTokens firstTokens
  rw [hlen1, List.drop_take, List.drop_drop, List.take_take]
  have hco : cs - (cs - ov) = ov := by omega
  rw [hco]
  have hmin : min ov (min (s1 + (cs - ov) + cs) words.length - (s1 + (cs - ov))) = ov := by
    omega
  rw [hmin]

/-- C3 (amended): for `1 ≤ overlap < unitSize`, any two consecutive chunks
`c1, c2` returned by `chunkDocument` satisfy: whenever `c2` carries at
least `overlap` tokens, the last `overlap` tokens of `c1.content` equal
the first `overlap` tokens of `c2.content`.  The original claim (without
the token-count proviso on the successor chunk) fails when the final chunk
is clipped by the end of the document, and (without `overlap < unitSize`)
in the degenerate-overlap regime, where consecutive chunks are disjoint. -/
theorem chunkDocument_overlap_amended (content : String) (unitSize overlap : Nat)
    (hov1 : 1 ≤ overlap) (hov2 : overlap < unitSize) :
    List.Chain' (fun c1 c2 =>
      overlap ≤ (splitWs c2.content).length →
      lastTokens overlap (splitWs c1.content) = firstTokens overlap (splitWs c2.content))
      (chunkDocument content unitSize overlap) := by
  rw [chunkDocument_eq_loop]
  rw [List.chain'_iff_get]
  intro i hi
  have hm1 := List.get_mem
    (chunkLoop (splitWs content) unitSize overlap (splitWs content).length 0 0) i (by omega)
  have hm2 := List.get_mem
    (chunkLoop (splitWs content) unitSize overlap (splitWs content).length 0 0) (i + 1)
    (by omega)
  obtain ⟨hlt1, hend1, _⟩ := chunkLoop_shape (splitWs content) unitSize overlap _ 0 0 _ hm1
  obtain ⟨hlt2, hend2, _⟩ := chunkLoop_shape (splitWs content) unitSize overlap _ 0 0 _ hm2
  have hcR := (List.chain'_iff_get.mp
    (chunkLoop_chain (splitWs content) unitSize overlap (splitWs content).length 0 0)) i hi
  have hco : ¬ unitSize ≤ overlap := by omega
  simp only [hco, if_false] at hcR
  intro hlen
  have htok1 := chunkLoop_tokens content unitSize overlap _ 0 0 (by omega) _ hm1
  have htok2 := chunkLoop_tokens content unitSize overlap _ 0 0 (by omega) _ hm2
  rw [htok2] at hlen
  rw [hcR] at hend2
  rw [hcR, hend2] at hlen
  rw [htok1, htok2, hcR, hend1, hend2]
  exact slice_overlap (splitWs content) unitSize overlap _ hov1 hov2 hlen

/-- C3 refuted as stated: on the four-token document `"a b c d"` with
`unitSize = 3` and `overlap = 2` the windower returns four chunks
(`"a b c"`, `"b c d"`, `"c d"`, `"d"`), and for the consecutive pair at
indices 2 and 3 the last two tokens of `"c d"` are `["c", "d"]` while the
first two tokens of `"d"` are just `["d"]`. -/
theorem chunkDocument_overlap_counterexample :
    1 ≤ 2 ∧ (chunkDocument "a b c d" 3 2).length = 4 ∧
    lastTokens 2 (splitWs ((chunkDocument "a b c d" 3 2).getD 2 ⟨"", 0, 0, 0⟩).content)
      ≠ firstTokens 2 (splitWs ((chunkDocument "a b c d" 3 2).getD 3 ⟨"", 0, 0, 0⟩).content) := by
  decide

/-- Witness for `chunkDocument_overlap_amended` on a six-token document. -/
theorem chunkDocument_overlap_witness :
    (1 ≤ 1 ∧ 1 < 3) ∧
    List.Chain' (fun c1 c2 =>
      1 ≤ (splitWs c2.content).length →
      lastTokens 1 (splitWs c1.content) = firstTokens 1 (splitWs c2.content))
      (chunkDocument "a b c d e f" 3 1) :=
  ⟨⟨by decide, by decide⟩, chunkDocument_overlap_amended "a b c d e f" 3 1 (by decide) (by decide)⟩

theorem mapWithIndex_length {α β : Type} (f : Nat → α → β) :
    ∀ (l : List α) (i : Nat), (mapWithIndex f i l).length = l.length := by
  intro l
  induction l with
  | nil => intro i; rfl
  | cons a as ih => intro i; simp [mapWithIndex, ih]

theorem mapWithIndexM_ok {α β ε : Type} (f : Nat → α → Except ε β) :
    ∀ (l : List α) (i : Nat) (res : List β), mapWithIndexM f i l = .ok res →
      res.length = l.length ∧
      ∀ j (hj : j < l.length) (hj2 : j < res.length),
        f (i + j) (l.get ⟨j, hj⟩) = .ok (res.get ⟨j, hj2⟩) := by
  intro l
  induction l with
  | nil =>
    intro i res h
    simp only [mapWithIndexM] at h
    cases h
    exact ⟨rfl, by intro j hj; simp at hj⟩
  | cons a as ih =>
    intro i res h
    simp only [mapWithIndexM] at h
    cases hf : f i a with
    | error e => rw [hf] at h; cases h
    | ok b =>
      rw [hf] at h
      cases hrest : mapWithIndexM f (i + 1) as with
      | error e => rw [hrest] at h; cases h
      | ok bs =>
        rw [hrest] at h
        cases h
        obtain ⟨hlen, hget⟩ := ih (i + 1) bs hrest
        refine ⟨by simp [hlen], ?_⟩
        intro j hj hj2
        cases j with
        | zero => simpa using hf
        | succ m =>
          have harith : i + (m + 1) = i + 1 + m := by omega
          rw [harith]
          exact hget m (by simp only [List.length_cons] at hj; omega)
            (by simp only [List.length_cons] at hj2; omega)

/-- C7: a failing external call inside `summarizeChunk` is swallowed and
yields the empty summary, and pass 1 always produces one entry per chunk;
whereas a failing external call inside `generateContextForChunk` for any
chunk makes the whole unbatched two-pass call reject, returning no
context sequence. -/
theorem context_failure_semantics :
    (∀ (opts : RequiredOptions) (gen : GenOracle) (chunk : String) (chunkIndex : Nat)
      (e : String), gen (summarizeRequest opts chunk) = .error e →
      summarizeChunk opts gen chunk chunkIndex = "") ∧
    (∀ (opts : RequiredOptions) (gen : GenOracle) (allChunks : List String),
      (pass1Summaries opts gen allChunks).length = allChunks.length) ∧
    (∀ (opts : RequiredOptions) (gen : GenOracle) (allChunks : List String)
      (metadata : Metadata) (k : Nat) (hk : k < allChunks.length) (e : String),
      gen (contextRequest opts (allChunks.get ⟨k, hk⟩) k
        (pass1Summaries opts gen allChunks) metadata) = .error e →
      ∃ e2, generateContextsForChunks opts gen allChunks metadata = .error e2) := by
  refine ⟨?_, ?_, ?_⟩
  · intro opts gen chunk chunkIndex e h
    simp [summarizeChunk, h]
  · intro opts gen allChunks
    exact mapWithIndex_length _ allChunks 0
  · intro opts gen allChunks metadata k hk e hfail
    cases hres : generateContextsForChunks opts gen allChunks metadata with
    | error e2 => exact ⟨e2, rfl⟩
    | ok res =>
      exfalso
      unfold generateContextsForChunks at hres
      obtain ⟨hlen, hget⟩ := mapWithIndexM_ok _ allChunks 0 res hres
      have hx := hget k hk (by omega)
      simp only [Nat.zero_add] at hx
      unfold generateContextForChunk at hx
      rw [hfail] at hx
      cases hx

/-- Witness for `context_failure_semantics` with a concrete failing
oracle. -/
theorem context_failure_semantics_witness :
    (genAlwaysFail (summarizeRequest optsDefault "alpha") = .error "boom" ∧
      summarizeChunk optsDefault genAlwaysFail "alpha" 0 = "") ∧
    (pass1Summaries optsDefault genAlwaysFail ["alpha", "beta"]).length = 2 ∧
    ∃ e2, generateContextsForChunks optsDefault genAlwaysFail ["alpha"]
        ⟨none, none, none⟩ = .error e2 :=
  ⟨⟨rfl, context_failure_semantics.1 optsDefault genAlwaysFail "alpha" 0 "boom" rfl⟩,
   context_failure_semantics.2.1 optsDefault genAlwaysFail ["alpha", "beta"],
   context_failure_semantics.2.2 optsDefault genAlwaysFail ["alpha"]
     ⟨none, none, none⟩ 0 (by decide) "boom" rfl⟩

/-- C8: for every chunk index `k` with at most `|priorSummaries|` prior
entries and configured window `w`, the sliding window used in the prompt
of `generateContextForChunk` has exactly `min w k` entries, entry `j`
being summary `(k - w) + j` — i.e. exactly the summaries at indices
`max(0, k - w) … k - 1`, never index `k` or later (note
`(k - w) + j < k` whenever `j < min w k`) — and the produced request
depends on the summary list only through this window. -/
theorem sliding_window_exact :
    ∀ (opts : RequiredOptions) (k : Nat) (ss : List String), k ≤ ss.length →
      ((relevantSummaries opts.windowSize k ss).length = min opts.windowSize k ∧
       (∀ j, j < min opts.windowSize k →
         (relevantSummaries opts.windowSize k ss).get? j
           = ss.get? (k - opts.windowSize + j)) ∧
       ∀ (gen : GenOracle) (chunk : String) (metadata : Metadata) (ss2 : List String),
         relevantSummaries opts.windowSize k ss2
           = relevantSummaries opts.windowSize k ss →
         generateContextForChunk opts gen chunk k ss2 metadata
           = generateContextForChunk opts gen chunk k ss metadata) := by
  intro opts k ss hk
  refine ⟨?_, ?_, ?_⟩
  · simp only [relevantSummaries, List.length_take, List.length_drop]
    omega
  · intro j hj
    have hjlt : j < k - (k - opts.windowSize) := by omega
    unfold relevantSummaries
    rw [List.get?_take hjlt, List.get?_drop]
  · intro gen chunk metadata ss2 h
    unfold generateContextForChunk contextRequest
    rw [h]

/-- Witness for `sliding_window_exact` at window 2 and chunk index 3. -/
theorem sliding_window_witness :
    (3 ≤ (["s0", "s1", "s2", "s3", "s4"] : List String).length) ∧
    ((relevantSummaries optsDefault.windowSize 3 ["s0", "s1", "s2", "s3", "s4"]).length
        = min optsDefault.windowSize 3 ∧
     (∀ j, j < min optsDefault.windowSize 3 →
       (relevantSummaries optsDefault.windowSize 3 ["s0", "s1", "s2", "s3", "s4"]).get? j
         = (["s0", "s1", "s2", "s3", "s4"] : List String).get?
             (3 - optsDefault.windowSize + j)) ∧
     ∀ (gen : GenOracle) (chunk : String) (metadata : Metadata) (ss2 : List String),
       relevantSummaries optsDefault.windowSize 3 ss2
         = relevantSummaries optsDefault.windowSize 3 ["s0", "s1", "s2", "s3", "s4"] →
       generateContextForChunk optsDefault gen chunk 3 ss2 metadata
         = generateContextForChunk optsDefault gen chunk 3
             ["s0", "s1", "s2", "s3", "s4"] metadata) :=
  ⟨by decide, sliding_window_exact optsDefault 3 ["s0", "s1", "s2", "s3", "s4"] (by decide)⟩

theorem mapWithIndex_shift {α β : Type} (f : Nat → α → β) :
    ∀ (l : List α) (t s : Nat),
      mapWithIndex (fun j x => f (t + j) x) s l = mapWithIndex f (t + s) l := by
  intro l
  induction l with
  | nil => intro t s; rfl
  | cons a as ih =>
    intro t s
    simp only [mapWithIndex]
    rw [ih t (s + 1), ← Nat.add_assoc]

theorem mapWithIndex_append {α β : Type} (f : Nat → α → β) :
    ∀ (a b : List α) (s : Nat),
      mapWithIndex f s (a ++ b) = mapWithIndex f s a ++ mapWithIndex f (s + a.length) b := by
  intro a
  induction a with
  | nil => intro b s; simp [mapWithIndex]
  | cons x xs ih =>
    intro b s
    simp only [List.cons_append, mapWithIndex, List.length_cons, List.append_eq]
    rw [ih b (s + 1)]
    have harith : s + (xs.length + 1) = s + 1 + xs.length := by omega
    rw [harith]

theorem batchedMapWithIndex_eq {β : Type} (f : Nat → String → β) (l : List String)
    (b : Nat) (hb : 1 ≤ b) : ∀ fuel i, l.length - i ≤ fuel →
      batchedMapWithIndex f l b fuel i = mapWithIndex f i (l.drop i) := by
  intro fuel
  induction fuel with
  | zero =>
    intro i h
    rw [List.drop_eq_nil_of_le (show l.length ≤ i by omega)]
    rfl
  | succ fuel ih =>
    intro i h
    by_cases hi : i < l.length
    · simp only [batchedMapWithIndex, hi, if_true]
      rw [mapWithIndex_shift, Nat.add_zero, ih (i + b) (by omega)]
      by_cases hib : i + b ≤ l.length
      · have hn1 : min (i + b) l.length - i = b := by
          rw [min_eq_left hib]
          omega
        rw [hn1]
        conv_rhs => rw [← List.take_append_drop b (l.drop i)]
        rw [mapWithIndex_append, List.drop_drop]
        have hlen : ((l.drop i).take b).length = b := by
          rw [List.length_take, List.length_drop]
          rw [min_eq_left (by omega)]
        rw [hlen]
      · have hn1 : min (i + b) l.length - i = l.length - i := by
          rw [min_eq_right (by omega)]
        rw [hn1]
        have htake : (l.drop i).take (l.length - i) = l.drop i := by
          apply List.take_of_length_le
          rw [List.length_drop]
        rw [htake, List.drop_eq_nil_of_le (show l.length ≤ i + b by omega)]
        simp [mapWithIndex]
    · simp only [batchedMapWithIndex, hi, if_false]
      rw [List.drop_eq_nil_of_le (show l.length ≤ i by omega)]
      rfl

theorem mapWithIndexM_append {α β ε : Type} (f : Nat → α → Except ε β) :
    ∀ (a b : List α) (s : Nat),
      mapWithIndexM f s (a ++ b) =
        match mapWithIndexM f s a with
        | .error e => .error e
        | .ok ra =>
          match mapWithIndexM f (s + a.length) b with
          | .error e => .error e
          | .ok rb => .ok (ra ++ rb) := by
  intro a
  induction a with
  | nil =>
    intro b s
    simp only [List.nil_append, mapWithIndexM, List.length_nil, Nat.add_zero]
    cases h : mapWithIndexM f s b <;> simp
  | cons x xs ih =>
    intro b s
    simp only [List.cons_append, mapWithIndexM, List.length_cons, List.append_eq]
    rw [ih b (s + 1)]
    have harith : s + (xs.length + 1) = s + 1 + xs.length := by omega
    rw [harith]
    cases hf : f s x with
    | error e => rfl
    | ok r =>
      cases h1 : mapWithIndexM f (s + 1) xs with
      | error e => rfl
      | ok ra =>
        cases h2 : mapWithIndexM f (s + 1 + xs.length) b with
        | error e => rfl
        | ok rb => rfl

theorem mapWithIndexM_shift {β : Type} (f : Nat → String → Except JsError β) :
    ∀ (m : List String) (t s : Nat),
      mapWithIndexM (fun j x => f (t + j) x) s m = mapWithIndexM f (t + s) m := by
  intro m
  induction m with
  | nil => intro t s; rfl
  | cons y ys ihm =>
    intro t s
    simp only [mapWithIndexM]
    rw [ihm t (s + 1), ← Nat.add_assoc]

theorem batchedMapWithIndexM_eq {β : Type} (f : Nat → String → Except JsError β)
    (l : List String) (b : Nat) (hb : 1 ≤ b) : ∀ fuel i, l.length - i ≤ fuel →
      batchedMapWithIndexM f l b fuel i = mapWithIndexM f i (l.drop i) := by
  intro fuel
  induction fuel with
  | zero =>
    intro i h
    rw [List.drop_eq_nil_of_le (show l.length ≤ i by omega)]
    rfl
  | succ fuel ih =>
    intro i h
    by_cases hi : i < l.length
    · simp only [batchedMapWithIndexM, hi, if_true]
      rw [mapWithIndexM_shift, Nat.add_zero, ih (i + b) (by omega)]
      by_cases hib : i + b ≤ l.length
      · have hn1 : min (i + b) l.length - i = b := by
          rw [min_eq_left hib]
          omega
        rw [hn1]
        conv_rhs => rw [← List.take_append_drop b (l.drop i)]
        rw [mapWithIndexM_append, List.drop_drop]
        have hlen : ((l.drop i).take b).length = b := by
          rw [List.length_take, List.length_drop]
          rw [min_eq_left (by omega)]
        rw [hlen]
        cases hm : mapWithIndexM f i ((l.drop i).take b) with
        | error e => simp
        | ok ra => cases hm2 : mapWithIndexM f (i + b) (l.drop (i + b)) <;> simp
      · have hn1 : min (i + b) l.length - i = l.length - i := by
          rw [min_eq_right (by omega)]
        rw [hn1]
        have htake : (l.drop i).take (l.length - i) = l.drop i := by
          apply List.take_of_length_le
          rw [List.length_drop]
        rw [htake, List.drop_eq_nil_of_le (show l.length ≤ i + b by omega)]
        cases hm : mapWithIndexM f i (l.drop i) <;> simp [mapWithIndexM, hm]
    · simp only [batchedMapWithIndexM, hi, if_false]
      rw [List.drop_eq_nil_of_le (show l.length ≤ i by omega)]
      rfl

/-- C9: for any `batchSize ≥ 1` and any (deterministic) generation oracle,
the rate-limited two-pass variant computes exactly the same context
sequence as the unbatched two-pass variant, and on success `result[i]` is
precisely the context generated for chunk `i` against the pass-1 summary
list — results are in input order regardless of batch grouping. -/
theorem rateLimit_refines (opts : RequiredOptions) (gen : GenOracle)
    (allChunks : List String) (metadata : Metadata) (batchSize delayMs : Nat)
    (hb : 1 ≤ batchSize) :
    generateContextsWithRateLimit opts gen allChunks metadata batchSize delayMs
      = generateContextsForChunks opts gen allChunks metadata ∧
    ∀ res, generateContextsForChunks opts gen allChunks metadata = .ok res →
      res.length = allChunks.length ∧
      ∀ i (hi : i < allChunks.length) (hi2 : i < res.length),
        generateContextForChunk opts gen (allChunks.get ⟨i, hi⟩) i
          (pass1Summaries opts gen allChunks) metadata = .ok (res.get ⟨i, hi2⟩) := by
  constructor
  · unfold generateContextsWithRateLimit generateContextsForChunks pass1Summaries
    rw [batchedMapWithIndex_eq _ allChunks batchSize hb allChunks.length 0 (by omega),
      List.drop_zero,
      batchedMapWithIndexM_eq _ allChunks batchSize hb allChunks.length 0 (by omega),
      List.drop_zero]
  · intro res hres
    unfold generateContextsForChunks at hres
    obtain ⟨hlen, hget⟩ := mapWithIndexM_ok _ allChunks 0 res hres
    refine ⟨hlen, ?_⟩
    intro i hi hi2
    have hx := hget i hi hi2
    simpa using hx

/-- Witness for `rateLimit_refines` on three chunks with batch size 2. -/
theorem rateLimit_refines_witness :
    (1 ≤ 2) ∧
    (generateContextsWithRateLimit optsDefault genConst ["a", "b", "c"]
        ⟨none, none, none⟩ 2 0
      = generateContextsForChunks optsDefault genConst ["a", "b", "c"]
        ⟨none, none, none⟩ ∧
    ∀ res, generateContextsForChunks optsDefault genConst ["a", "b", "c"]
        ⟨none, none, none⟩ = .ok res →
      res.length = (["a", "b", "c"] : List String).length ∧
      ∀ i (hi : i < (["a", "b", "c"] : List String).length) (hi2 : i < res.length),
        generateContextForChunk optsDefault genConst
          ((["a", "b", "c"] : List String).get ⟨i, hi⟩) i
          (pass1Summaries optsDefault genConst ["a", "b", "c"]) ⟨none, none, none⟩
          = .ok (res.get ⟨i, hi2⟩)) :=
  ⟨by decide,
   rateLimit_refines optsDefault genConst ["a", "b", "c"] ⟨none, none, none⟩ 2 0 (by decide)⟩

theorem mem_mapWithIndex {α β : Type} (f : Nat → α → β) :
    ∀ (l : List α) (s : Nat) (y : β), y ∈ mapWithIndex f s l →
      ∃ j, ∃ hj : j < l.length, y = f (s + j) (l.get ⟨j, hj⟩) := by
  intro l
  induction l with
  | nil => intro s y hy; simp [mapWithIndex] at hy
  | cons a as ih =>
    intro s y hy
    rw [mapWithIndex, List.mem_cons] at hy
    rcases hy with hy | hy
    · exact ⟨0, by simp, by simpa using hy⟩
    · obtain ⟨j, hj, hyj⟩ := ih (s + 1) y hy
      refine ⟨j + 1, by simp only [List.length_cons]; omega, ?_⟩
      rw [hyj]
      have harith : s + (j + 1) = s + 1 + j := by omega
      rw [harith]
      rfl

theorem mapWithIndex_get? {α β : Type} (f : Nat → α → β) :
    ∀ (l : List α) (s j : Nat),
      (mapWithIndex f s l).get? j = (l.get? j).map (f (s + j)) := by
  intro l
  induction l with
  | nil => intro s j; simp [mapWithIndex]
  | cons a as ih =>
    intro s j
    cases j with
    | zero => simp [mapWithIndex]
    | succ m =>
      simp only [mapWithIndex, List.get?_cons_succ]
      rw [ih (s + 1) m]
      have harith : s + (m + 1) = s + 1 + m := by omega
      rw [harith]

theorem string_length_ne_zero (s : String) (h : s ≠ "") : s.length ≠ 0 := by
  intro h0
  apply h
  apply string_of_data_nil
  exact List.length_eq_zero.mp h0

theorem ingestStoreChunks_ok (embedFn : List String → Except JsError Unit)
    (chunks : List DocumentChunk) (contextualizedChunks contexts : List String)
    (res : List StoredChunk)
    (h : ingestStoreChunks embedFn chunks contextualizedChunks contexts = .ok res) :
    res = mapWithIndex (fun i c =>
      { content := contextualizedChunks.getD i "",
        chunkIndex := c.chunkIndex,
        originalContent := c.content,
        contextualPrefix := contexts.getD i "" }) 0 chunks := by
  unfold ingestStoreChunks at h
  cases hemb : embedFn contextualizedChunks with
  | error e => rw [hemb] at h; cases h
  | ok u => rw [hemb] at h; cases h; rfl

/-- C1 (amended): whenever `ingestDocumentWithContextualRetrieval` runs
with `useContextual = true` and a configured context service, the
context-generation step receives the raw document string as the parameter
declared to hold the chunk contents (and the chunk-content array as the
metadata parameter, and — in the rate-limited call — the metadata object
as the batch size).  Consequently the non-rate-limited path always
rejects with a `TypeError`; the rate-limited path rejects for every
nonempty document; and in the single surviving case (rate limiting on the
empty document) the call succeeds but every stored chunk has an empty
contextual prefix and unmodified content.  So no contextualized chunk is
ever stored through this path — but, contrary to the claim as stated, not
every such call rejects. -/
theorem ingest_contextual_bug (svc : ContextualRetrievalServiceM)
    (embedFn : List String → Except JsError Unit) (content : String)
    (metadata : Metadata) (chunkSize overlap batchSize : Nat) :
    (ingestDocumentWithContextualRetrieval (some svc) embedFn content metadata
        chunkSize overlap true false batchSize
      = .error (.typeError "allChunks.map is not a function")) ∧
    (content ≠ "" →
      ingestDocumentWithContextualRetrieval (some svc) embedFn content metadata
        chunkSize overlap true true batchSize
      = .error (.typeError "batch.map is not a function")) ∧
    (∀ (useRateLimit : Bool) (res : List StoredChunk),
      ingestDocumentWithContextualRetrieval (some svc) embedFn content metadata
        chunkSize overlap true useRateLimit batchSize = .ok res →
      ∀ c ∈ res, c.contextualPrefix = "" ∧ c.content = c.originalContent) := by
  refine ⟨rfl, ?_, ?_⟩
  · intro hne
    have hlen : content.length ≠ 0 := string_length_ne_zero content hne
    simp [ingestDocumentWithContextualRetrieval, generateContextsWithRateLimitJs, hlen]
  · intro rl res h
    cases rl with
    | false =>
      have hfalse : ingestDocumentWithContextualRetrieval (some svc) embedFn content
          metadata chunkSize overlap true false batchSize
          = .error (.typeError "allChunks.map is not a function") := rfl
      rw [hfalse] at h
      cases h
    | true =>
      by_cases h0 : content.length = 0
      · simp only [ingestDocumentWithContextualRetrieval,
          generateContextsWithRateLimitJs, h0, if_true] at h
        have hres := ingestStoreChunks_ok _ _ _ _ _ h
        intro c hc
        rw [hres] at hc
        obtain ⟨j, hj, hcj⟩ := mem_mapWithIndex _ _ 0 c hc
        rw [hcj]
        constructor
        · simp [List.getD]
        · show (mapWithIndex (fun i c =>
            if (([] : List String).getD i "" ≠ "") then
              ([] : List String).getD i "" ++ "\n\n" ++ c.content
            else c.content) 0 (chunkDocument content chunkSize overlap)).getD (0 + j) ""
            = ((chunkDocument content chunkSize overlap).get ⟨j, hj⟩).content
          unfold List.getD
          rw [mapWithIndex_get?]
          simp only [Nat.zero_add]
          rw [List.get?_eq_get hj]
          simp
      · simp [ingestDocumentWithContextualRetrieval,
          generateContextsWithRateLimitJs, h0] at h

/-- C1 refuted as stated: with `useContextual = true`, a configured
context service, `useRateLimit = true` and the empty document, the call
does not reject — it succeeds and stores the single (empty) chunk with an
empty contextual prefix. -/
theorem ingest_contextual_counterexample :
    ingestDocumentWithContextualRetrieval (some svcConst) embedOk "" ⟨none, none, none⟩
      800 100 true true 10 = .ok [⟨"", 0, "", ""⟩] := by
  rfl

/-- Witness for `ingest_contextual_bug`: the rate-limited contextual
ingestion of a concrete nonempty document rejects with the `TypeError`
raised by calling `.map` on a string slice. -/
theorem ingest_contextual_bug_witness :
    ingestDocumentWithContextualRetrieval (some svcConst) embedOk "hello world"
        ⟨none, none, none⟩ 800 100 true true 10
      = .error (.typeError "batch.map is not a function") :=
  (ingest_contextual_bug svcConst embedOk "hello world" ⟨none, none, none⟩
    800 100 10).2.1 (by decide)
